import Mathlib

/-!
Shallow embedding of the polynomial feature expansion kernel `vec_poly`
from `nbs/5. Health Outcomes with Linear Regression.ipynb`:

```
@jit(nopython=True)
def vec_poly(x, res):
    m,n=x.shape
    feat_idx=0
    for i in range(n):
        v1=x[:,i]
        for k in range(m): res[k,feat_idx] = v1[k]
        feat_idx+=1
        for j in range(i,n):
            for k in range(m): res[k,feat_idx] = v1[k]*x[k,j]
            feat_idx+=1
```

and of the caller-side feature count `n_feat = n*(n+1)//2 + n`.

Matrices are modelled as flat buffers with an explicit storage order
(row-major as numpy default, column-major as produced by
`np.asfortranarray` / `np.zeros(..., order='F')`), so that claims about
layout independence are statable.  Element reads and writes are
bounds-checked and the kernel runs in `Except`, so a claim about memory
safety becomes a claim that the kernel returns `.ok`.  The mutable state
of a call (`x`, `res`, `feat_idx`) is threaded explicitly through the
loops, so the frame claim "the kernel never writes `x`" is statable.
Entries are modelled as exact integers; the numeric type of the entries
is irrelevant to the structural claims proved here.
-/

set_option autoImplicit false

namespace VecPoly

/-- A two-dimensional numeric buffer: `rows × cols` entries stored in a
flat list, in column-major order when `order = true` (numpy `'F'`),
row-major otherwise (numpy `'C'`, the default). -/
structure Mat where
  rows : Nat
  cols : Nat
  order : Bool
  data : List Int
  deriving DecidableEq, Repr

/-- Well-formedness: the flat buffer has exactly `rows * cols` entries. -/
def Mat.wf (A : Mat) : Prop := A.data.length = A.rows * A.cols

instance (A : Mat) : Decidable A.wf := by unfold Mat.wf; infer_instance

/-- Position of logical entry `(k, c)` in the flat buffer, following the
storage order. -/
def Mat.flatIdx (A : Mat) (k c : Nat) : Nat :=
  if A.order then c * A.rows + k else k * A.cols + c

/-- Logical entry `(k, c)` of the buffer (default `0` out of range). -/
def Mat.entry (A : Mat) (k c : Nat) : Int :=
  A.data.getD (A.flatIdx k c) 0

/-- The only run-time failure the unchecked numba kernel can hit in this
model: an element access outside the bounds of a buffer. -/
inductive PolyErr where
  | indexError
  deriving DecidableEq, Repr

/-- Bounds-checked element read `A[k, c]`. -/
def getE (A : Mat) (k c : Nat) : Except PolyErr Int :=
  if k < A.rows ∧ c < A.cols then .ok (A.entry k c) else .error .indexError

/-- Bounds-checked element write `A[k, c] = v`. -/
def setE (A : Mat) (k c : Nat) (v : Int) : Except PolyErr Mat :=
  if k < A.rows ∧ c < A.cols then
    .ok { A with data := A.data.set (A.flatIdx k c) v }
  else .error .indexError

/-- The mutable state of one `vec_poly` call: the input matrix `x`, the
destination buffer `res`, and the running column counter `feat_idx`. -/
structure St where
  x : Mat
  res : Mat
  fi : Nat
  deriving DecidableEq, Repr

/-- `for k in range(a, a+cnt)` over a fallible body. -/
def forUp {σ : Type} (f : Nat → σ → Except PolyErr σ) (a : Nat) :
    Nat → σ → Except PolyErr σ
  | 0, s => .ok s
  | cnt+1, s => f a s >>= forUp f (a+1) cnt

/-- Body of `for k in range(m): res[k,feat_idx] = v1[k]` where
`v1 = x[:,i]` is a view of column `i` of `x`. -/
def copyBody (i k : Nat) (s : St) : Except PolyErr St := do
  let v ← getE s.x k i
  let r ← setE s.res k s.fi v
  .ok { s with res := r }

/-- Body of `for k in range(m): res[k,feat_idx] = v1[k]*x[k,j]`. -/
def prodBody (i j k : Nat) (s : St) : Except PolyErr St := do
  let a ← getE s.x k i
  let b ← getE s.x k j
  let r ← setE s.res k s.fi (a * b)
  .ok { s with res := r }

/-- Body of the `for j in range(i,n)` loop: fill the product column,
then `feat_idx += 1`. -/
def jBody (m i j : Nat) (s : St) : Except PolyErr St := do
  let s ← forUp (prodBody i j) 0 m s
  .ok { s with fi := s.fi + 1 }

/-- Body of the `for i in range(n)` loop: copy column `i`,
`feat_idx += 1`, then run the `j` loop from `i` to `n-1`. -/
def iBody (m n i : Nat) (s : St) : Except PolyErr St := do
  let s ← forUp (copyBody i) 0 m s
  let s : St := { s with fi := s.fi + 1 }
  forUp (jBody m i) i (n - i) s

/-- The kernel `vec_poly(x, res)`: reads `m, n = x.shape`, starts
`feat_idx = 0` and runs the nested loops, returning the final state. -/
def vec_poly (x res : Mat) : Except PolyErr St :=
  let m := x.rows
  let n := x.cols
  forUp (iBody m n) 0 n { x := x, res := res, fi := 0 }

/-- The caller-side feature count: `n_feat = n*(n+1)//2 + n`. -/
def nFeat (n : Nat) : Nat := n * (n + 1) / 2 + n

/-- Value of `feat_idx` when the outer loop reaches `i`: each earlier
iteration `i'` emitted `1 + (n - i')` columns. -/
def off (n : Nat) : Nat → Nat
  | 0 => 0
  | i+1 => off n i + (1 + (n - i))

/-- Descriptor of one output column: a verbatim copy of input column
`i`, or the elementwise product of input columns `i` and `j`. -/
inductive Desc where
  | copy : Nat → Desc
  | prod : Nat → Nat → Desc
  deriving DecidableEq, Repr

/-- The sequence of column descriptors the kernel emits from outer
iteration `i` on: column `i` itself, then `x_i * x_j` for `j` in
`i..n-1`, then the columns of later iterations. -/
def descsFrom (n i : Nat) : List Desc :=
  if _h : i < n then
    (Desc.copy i :: (List.range' i (n - i)).map (Desc.prod i)) ++ descsFrom n (i+1)
  else []
termination_by n - i
decreasing_by omega

/-- The value a column descriptor puts in row `k`. -/
def descVal (x : Mat) (d : Desc) (k : Nat) : Int :=
  match d with
  | .copy i => x.entry k i
  | .prod i j => x.entry k i * x.entry k j

/-- The value the kernel leaves at output position `(k, c)`; a function
of the input matrix only. -/
def outVal (x : Mat) (c k : Nat) : Int :=
  descVal x ((descsFrom x.cols 0).getD c (Desc.copy 0)) k

/-- Entry `(k, c)` of the result buffer of a kernel run, when the run
succeeded. -/
def entryOf (e : Except PolyErr St) (k c : Nat) : Option Int :=
  match e with
  | .ok st => some (st.res.entry k c)
  | .error _ => none

/-! ### Arithmetic facts about the column counter -/

theorem off_succ (n i : Nat) : off n (i + 1) = off n i + (1 + (n - i)) := rfl

theorem off_closed (n : Nat) :
    ∀ i, i ≤ n → 2 * off n i + i * i = 2 * i * n + 3 * i := by
  intro i
  induction i with
  | zero => intro _; simp [off]
  | succ i ih =>
    intro h
    have hi : i ≤ n := by omega
    have ih' := ih hi
    rw [off_succ]
    zify [hi] at ih' ⊢
    linear_combination ih'

theorem off_n_eq_nFeat (n : Nat) : off n n = nFeat n := by
  have h := off_closed n n le_rfl
  have h2 : 2 * off n n = n * (n + 1) + 2 * n := by
    zify at h ⊢
    linear_combination h
  unfold nFeat
  generalize hg : n * (n + 1) = a at h2
  omega

theorem off_mono (n : Nat) : ∀ {i k : Nat}, i ≤ k → off n i ≤ off n k := by
  intro i k
  induction k with
  | zero =>
    intro h
    have : i = 0 := by omega
    subst this
    exact le_rfl
  | succ k ih =>
    intro h
    rcases Nat.lt_or_ge i (k + 1) with hlt | hge
    · refine le_trans (ih (by omega)) ?_
      rw [off_succ]
      omega
    · have : i = k + 1 := by omega
      subst this
      exact le_rfl

/-! ### Structure of the emitted descriptor sequence -/

theorem descsFrom_length (n i : Nat) (hi : i ≤ n) :
    off n i + (descsFrom n i).length = off n n := by
  by_cases h : i < n
  · rw [descsFrom, dif_pos h]
    have ihe := descsFrom_length n (i + 1) (by omega)
    rw [off_succ] at ihe
    simp only [List.length_append, List.length_cons, List.length_map,
      List.length_range']
    omega
  · have : i = n := by omega
    subst this
    rw [descsFrom, dif_neg (by omega)]
    simp
termination_by n - i
decreasing_by omega

theorem descsFrom_drop (n : Nat) :
    ∀ i, i ≤ n → (descsFrom n 0).drop (off n i) = descsFrom n i := by
  intro i
  induction i with
  | zero => intro _; simp [off]
  | succ i ih =>
    intro h
    have hi : i < n := by omega
    have ihe := ih (by omega)
    rw [off_succ, ← List.drop_drop, ihe, descsFrom, dif_pos hi]
    refine List.drop_left' ?_
    simp only [List.length_cons, List.length_map, List.length_range']
    omega

theorem descs_getElem_copy (n i : Nat) (hi : i < n) :
    (descsFrom n 0)[off n i]? = some (Desc.copy i) := by
  have h0 : (descsFrom n 0)[off n i + 0]? = (descsFrom n i)[0]? := by
    rw [← List.getElem?_drop, descsFrom_drop n i (by omega)]
  rw [Nat.add_zero] at h0
  rw [h0, descsFrom, dif_pos hi]
  simp

theorem descs_getElem_prod (n i j : Nat) (hij : i ≤ j) (hj : j < n) :
    (descsFrom n 0)[off n i + (1 + (j - i))]? = some (Desc.prod i j) := by
  have h0 : (descsFrom n 0)[off n i + (1 + (j - i))]? =
      (descsFrom n i)[1 + (j - i)]? := by
    rw [← List.getElem?_drop, descsFrom_drop n i (by omega)]
  rw [h0, descsFrom, dif_pos (by omega : i < n)]
  rw [List.cons_append, Nat.add_comm 1 (j - i), List.getElem?_cons_succ]
  rw [List.getElem?_append_left (by simp; omega)]
  rw [List.getElem?_map, List.getElem?_range' _ _ (by omega : j - i < n - i)]
  simp only [Nat.one_mul, Option.map_some']
  have he : i + (j - i) = j := by omega
  rw [he]

/-- Every descriptor the kernel emits refers to input columns in range:
copies name a column `< n`, products name a pair `i ≤ j < n`. -/
def Desc.inRange (n : Nat) : Desc → Prop
  | .copy a => a < n
  | .prod a b => a ≤ b ∧ b < n

theorem descsFrom_inRange (n i : Nat) :
    ∀ d ∈ descsFrom n i, d.inRange n := by
  by_cases h : i < n
  · rw [descsFrom, dif_pos h]
    intro d hd
    rcases List.mem_cons.1 hd with hc | hd'
    · subst hc; exact h
    · rcases List.mem_append.1 hd' with hm | hrest
      · rcases List.mem_map.1 hm with ⟨j, hj, rfl⟩
        obtain ⟨t, ht, rfl⟩ := List.mem_range'.1 hj
        exact ⟨by omega, by omega⟩
      · exact descsFrom_inRange n (i + 1) d hrest
  · rw [descsFrom, dif_neg h]
    intro d hd
    simp at hd
termination_by n - i
decreasing_by omega

/-! ### Buffer access lemmas -/

theorem flatIdx_lt (A : Mat) {k c : Nat} (hk : k < A.rows) (hc : c < A.cols) :
    A.flatIdx k c < A.rows * A.cols := by
  unfold Mat.flatIdx
  split
  · have h1 : c * A.rows + k < (c + 1) * A.rows := by
      rw [Nat.succ_mul]
      omega
    have h2 : (c + 1) * A.rows ≤ A.cols * A.rows := Nat.mul_le_mul_right _ hc
    rw [Nat.mul_comm A.rows A.cols]
    omega
  · have h1 : k * A.cols + c < (k + 1) * A.cols := by
      rw [Nat.succ_mul]
      omega
    have h2 : (k + 1) * A.cols ≤ A.rows * A.cols := Nat.mul_le_mul_right _ hk
    omega

theorem flatIdx_inj_aux {w k c k' c' : Nat} (hc : c < w) (hc' : c' < w)
    (h : k * w + c = k' * w + c') : k = k' ∧ c = c' := by
  have hw : 0 < w := by omega
  have h' : w * k + c = w * k' + c' := by
    rw [Nat.mul_comm w k, Nat.mul_comm w k']
    exact h
  have e1 : (w * k + c) / w = k := by
    rw [Nat.mul_add_div hw, Nat.div_eq_of_lt hc]
    omega
  have e2 : (w * k' + c') / w = k' := by
    rw [Nat.mul_add_div hw, Nat.div_eq_of_lt hc']
    omega
  have hkk : k = k' := by rw [← e1, ← e2, h']
  subst hkk
  exact ⟨rfl, by omega⟩

theorem flatIdx_inj (A : Mat) {k c k' c' : Nat} (hk : k < A.rows) (hc : c < A.cols)
    (hk' : k' < A.rows) (hc' : c' < A.cols)
    (h : A.flatIdx k c = A.flatIdx k' c') : k = k' ∧ c = c' := by
  unfold Mat.flatIdx at h
  split at h
  · have := flatIdx_inj_aux hk hk' h
    exact ⟨this.2, this.1⟩
  · exact flatIdx_inj_aux hc hc' h

theorem entry_set (A : Mat) (hA : A.wf) {k c : Nat} (hk : k < A.rows) (hc : c < A.cols)
    (v : Int) (k' c' : Nat) (hk' : k' < A.rows) (hc' : c' < A.cols) :
    Mat.entry { A with data := A.data.set (A.flatIdx k c) v } k' c' =
      if k' = k ∧ c' = c then v else A.entry k' c' := by
  have hlen : A.flatIdx k c < A.data.length := by
    rw [hA]
    exact flatIdx_lt A hk hc
  by_cases heq : k' = k ∧ c' = c
  · obtain ⟨rfl, rfl⟩ := heq
    simp only [Mat.entry, Mat.flatIdx, if_true, and_self, if_pos]
    rw [List.getD_eq_getElem?_getD]
    have : ({ A with data := A.data.set (A.flatIdx k' c') v } : Mat).flatIdx k' c' =
        A.flatIdx k' c' := rfl
    simp only [Mat.flatIdx] at this ⊢
    rw [List.getElem?_set_self (by simpa [Mat.flatIdx] using hlen)]
    rfl
  · rw [if_neg heq]
    have hne : A.flatIdx k' c' ≠ A.flatIdx k c := by
      intro hcontra
      exact heq (flatIdx_inj A hk' hc' hk hc hcontra)
    simp only [Mat.entry]
    have hfi : ({ A with data := A.data.set (A.flatIdx k c) v } : Mat).flatIdx k' c' =
        A.flatIdx k' c' := rfl
    rw [hfi, List.getD_eq_getElem?_getD, List.getD_eq_getElem?_getD,
      List.getElem?_set_ne (by omega)]

theorem setE_ok (A : Mat) {k c : Nat} (hk : k < A.rows) (hc : c < A.cols) (v : Int) :
    setE A k c v = .ok { A with data := A.data.set (A.flatIdx k c) v } := by
  unfold setE
  rw [if_pos ⟨hk, hc⟩]

theorem getE_ok (A : Mat) {k c : Nat} (hk : k < A.rows) (hc : c < A.cols) :
    getE A k c = .ok (A.entry k c) := by
  unfold getE
  rw [if_pos ⟨hk, hc⟩]

theorem set_wf (A : Mat) (hA : A.wf) (i : Nat) (v : Int) :
    Mat.wf { A with data := A.data.set i v } := by
  unfold Mat.wf at *
  simpa using hA

theorem ok_bind {α β : Type} (a : α) (f : α → Except PolyErr β) :
    (Except.ok a >>= f) = f a := rfl

theorem error_bind {α β : Type} (e : PolyErr) (f : α → Except PolyErr β) :
    (Except.error e >>= f : Except PolyErr β) = Except.error e := rfl

/-- Two call states with equal components are equal. -/
theorem stEq {a b : St} (h1 : a.x = b.x) (h2 : a.res = b.res) (h3 : a.fi = b.fi) :
    a = b := by
  cases a
  cases b
  cases h1
  cases h2
  cases h3
  rfl

/-! ### The generic ascending-loop invariant -/

theorem forUp_inv {σ : Type} {f : Nat → σ → Except PolyErr σ} {P : Nat → σ → Prop} :
    ∀ (cnt a : Nat) (s : σ),
      (∀ k t, a ≤ k → k < a + cnt → P k t → ∃ t', f k t = .ok t' ∧ P (k + 1) t') →
      P a s → ∃ s', forUp f a cnt s = .ok s' ∧ P (a + cnt) s' := by
  intro cnt
  induction cnt with
  | zero =>
    intro a s _ hP
    exact ⟨s, rfl, hP⟩
  | succ cnt ih =>
    intro a s hstep hP
    obtain ⟨t, hft, hPt⟩ := hstep a s le_rfl (by omega) hP
    obtain ⟨s', hrun, hPs'⟩ :=
      ih (a + 1) t (fun k t hk1 hk2 hp => hstep k t (by omega) (by omega) hp) hPt
    refine ⟨s', ?_, by simpa [Nat.add_comm, Nat.add_assoc, Nat.add_left_comm] using hPs'⟩
    show f a s >>= forUp f (a + 1) cnt = .ok s'
    rw [hft, ok_bind]
    exact hrun

/-- Success-only preservation: if every body step preserves a property of
the state, a successful loop run preserves it. -/
theorem forUp_pres {σ : Type} {f : Nat → σ → Except PolyErr σ} {Q : σ → σ → Prop}
    (hrefl : ∀ s, Q s s) (htrans : ∀ a b c, Q a b → Q b c → Q a c)
    (hstep : ∀ k t t', f k t = .ok t' → Q t t') :
    ∀ (cnt a : Nat) (s s' : σ), forUp f a cnt s = .ok s' → Q s s' := by
  intro cnt
  induction cnt with
  | zero =>
    intro a s s' h
    unfold forUp at h
    cases h
    exact hrefl s
  | succ cnt ih =>
    intro a s s' h
    unfold forUp at h
    cases hfa : f a s with
    | ok t =>
      rw [hfa, ok_bind] at h
      exact htrans _ _ _ (hstep a s t hfa) (ih (a + 1) t s' h)
    | error e =>
      rw [hfa, error_bind] at h
      cases h

/-! ### The two innermost `for k in range(m)` loops -/

theorem copyLoop_ok (x : Mat) (i c0 : Nat) (hi : i < x.cols)
    (s : St) (hsx : s.x = x) (hfi : s.fi = c0)
    (hwf : s.res.wf) (hrr : x.rows ≤ s.res.rows) (hc0 : c0 < s.res.cols) :
    ∃ s', forUp (copyBody i) 0 x.rows s = .ok s' ∧
      s'.x = x ∧ s'.fi = c0 ∧
      s'.res.rows = s.res.rows ∧ s'.res.cols = s.res.cols ∧
      s'.res.order = s.res.order ∧ s'.res.wf ∧
      ∀ k' c', k' < s.res.rows → c' < s.res.cols →
        s'.res.entry k' c' =
          if c' = c0 ∧ k' < x.rows then x.entry k' i else s.res.entry k' c' := by
  obtain ⟨s', hrun, hfin⟩ := @forUp_inv St (copyBody i)
    (fun k t =>
      t.x = x ∧ t.fi = c0 ∧ t.res.rows = s.res.rows ∧ t.res.cols = s.res.cols ∧
      t.res.order = s.res.order ∧ t.res.wf ∧
      ∀ k' c', k' < s.res.rows → c' < s.res.cols →
        t.res.entry k' c' =
          if c' = c0 ∧ k' < k then x.entry k' i else s.res.entry k' c')
    x.rows 0 s
    (by
      intro k t _ hkm hP
      obtain ⟨htx, htfi, hrr', hcc', hoo', hwf', hent⟩ := hP
      have hkm' : k < x.rows := by omega
      have hkr : k < t.res.rows := by omega
      have hcr : c0 < t.res.cols := by omega
      refine ⟨{ t with res :=
        { t.res with data := t.res.data.set (t.res.flatIdx k c0) (x.entry k i) } },
        ?_, ?_⟩
      · unfold copyBody
        rw [htx, getE_ok x hkm' hi, ok_bind, htfi, setE_ok t.res hkr hcr, ok_bind]
      · refine ⟨htx, htfi, hrr', hcc', hoo', set_wf t.res hwf' _ _, ?_⟩
        intro k' c' hk' hc'
        have hk'' : k' < t.res.rows := by omega
        have hc'' : c' < t.res.cols := by omega
        have hes := entry_set t.res hwf' hkr hcr (x.entry k i) k' c' hk'' hc''
        rw [hes]
        by_cases h1 : k' = k ∧ c' = c0
        · obtain ⟨rfl, rfl⟩ := h1
          rw [if_pos ⟨rfl, rfl⟩, if_pos ⟨rfl, by omega⟩]
        · rw [if_neg h1, hent k' c' hk' hc']
          by_cases h2 : c' = c0 ∧ k' < k
          · rw [if_pos h2, if_pos ⟨h2.1, by omega⟩]
          · rw [if_neg h2, if_neg (by
              intro hcontra
              rcases hcontra with ⟨hc0', hk1⟩
              rcases Nat.lt_or_ge k' k with hlt | hge
              · exact h2 ⟨hc0', hlt⟩
              · exact h1 ⟨by omega, hc0'⟩)])
    (by
      refine ⟨hsx, hfi, rfl, rfl, rfl, hwf, ?_⟩
      intro k' c' _ _
      rw [if_neg (by intro h; omega)])
  obtain ⟨hfx, hffi, hfr, hfc, hfo, hfwf, hfent⟩ := hfin
  refine ⟨s', hrun, hfx, hffi, hfr, hfc, hfo, hfwf, ?_⟩
  intro k' c' hk' hc'
  have := hfent k' c' hk' hc'
  simpa using this

theorem prodLoop_ok (x : Mat) (i j c0 : Nat) (hi : i < x.cols) (hj : j < x.cols)
    (s : St) (hsx : s.x = x) (hfi : s.fi = c0)
    (hwf : s.res.wf) (hrr : x.rows ≤ s.res.rows) (hc0 : c0 < s.res.cols) :
    ∃ s', forUp (prodBody i j) 0 x.rows s = .ok s' ∧
      s'.x = x ∧ s'.fi = c0 ∧
      s'.res.rows = s.res.rows ∧ s'.res.cols = s.res.cols ∧
      s'.res.order = s.res.order ∧ s'.res.wf ∧
      ∀ k' c', k' < s.res.rows → c' < s.res.cols →
        s'.res.entry k' c' =
          if c' = c0 ∧ k' < x.rows then x.entry k' i * x.entry k' j
          else s.res.entry k' c' := by
  obtain ⟨s', hrun, hfin⟩ := @forUp_inv St (prodBody i j)
    (fun k t =>
      t.x = x ∧ t.fi = c0 ∧ t.res.rows = s.res.rows ∧ t.res.cols = s.res.cols ∧
      t.res.order = s.res.order ∧ t.res.wf ∧
      ∀ k' c', k' < s.res.rows → c' < s.res.cols →
        t.res.entry k' c' =
          if c' = c0 ∧ k' < k then x.entry k' i * x.entry k' j
          else s.res.entry k' c')
    x.rows 0 s
    (by
      intro k t _ hkm hP
      obtain ⟨htx, htfi, hrr', hcc', hoo', hwf', hent⟩ := hP
      have hkm' : k < x.rows := by omega
      have hkr : k < t.res.rows := by omega
      have hcr : c0 < t.res.cols := by omega
      refine ⟨{ t with res :=
        { t.res with data :=
            t.res.data.set (t.res.flatIdx k c0) (x.entry k i * x.entry k j) } },
        ?_, ?_⟩
      · unfold prodBody
        rw [htx, getE_ok x hkm' hi, ok_bind, getE_ok x hkm' hj, ok_bind, htfi,
          setE_ok t.res hkr hcr, ok_bind]
      · refine ⟨htx, htfi, hrr', hcc', hoo', set_wf t.res hwf' _ _, ?_⟩
        intro k' c' hk' hc'
        have hk'' : k' < t.res.rows := by omega
        have hc'' : c' < t.res.cols := by omega
        have hes := entry_set t.res hwf' hkr hcr (x.entry k i * x.entry k j) k' c'
          hk'' hc''
        rw [hes]
        by_cases h1 : k' = k ∧ c' = c0
        · obtain ⟨rfl, rfl⟩ := h1
          rw [if_pos ⟨rfl, rfl⟩, if_pos ⟨rfl, by omega⟩]
        · rw [if_neg h1, hent k' c' hk' hc']
          by_cases h2 : c' = c0 ∧ k' < k
          · rw [if_pos h2, if_pos ⟨h2.1, by omega⟩]
          · rw [if_neg h2, if_neg (by
              intro hcontra
              rcases hcontra with ⟨hc0', hk1⟩
              rcases Nat.lt_or_ge k' k with hlt | hge
              · exact h2 ⟨hc0', hlt⟩
              · exact h1 ⟨by omega, hc0'⟩)])
    (by
      refine ⟨hsx, hfi, rfl, rfl, rfl, hwf, ?_⟩
      intro k' c' _ _
      rw [if_neg (by intro h; omega)])
  obtain ⟨hfx, hffi, hfr, hfc, hfo, hfwf, hfent⟩ := hfin
  refine ⟨s', hrun, hfx, hffi, hfr, hfc, hfo, hfwf, ?_⟩
  intro k' c' hk' hc'
  have := hfent k' c' hk' hc'
  simpa using this

/-! ### The `for j in range(i, n)` loop -/

theorem jLoop_ok (x : Mat) (i : Nat) (hi : i < x.cols)
    (s : St) (hsx : s.x = x) (hfi : s.fi = off x.cols i + 1)
    (hwf : s.res.wf) (hrr : x.rows ≤ s.res.rows)
    (hcols : nFeat x.cols ≤ s.res.cols) :
    ∃ s', forUp (jBody x.rows i) i (x.cols - i) s = .ok s' ∧
      s'.x = x ∧ s'.fi = off x.cols (i + 1) ∧
      s'.res.rows = s.res.rows ∧ s'.res.cols = s.res.cols ∧
      s'.res.order = s.res.order ∧ s'.res.wf ∧
      ∀ k' c', k' < s.res.rows → c' < s.res.cols →
        s'.res.entry k' c' =
          if off x.cols i + 1 ≤ c' ∧ c' < off x.cols i + 1 + (x.cols - i) ∧
              k' < x.rows
          then x.entry k' i * x.entry k' (i + (c' - (off x.cols i + 1)))
          else s.res.entry k' c' := by
  have hnf : off x.cols x.cols = nFeat x.cols := off_n_eq_nFeat _
  have hmono : off x.cols (i + 1) ≤ off x.cols x.cols := off_mono _ (by omega)
  have hsucc := off_succ x.cols i
  obtain ⟨s', hrun, hfin⟩ := @forUp_inv St (jBody x.rows i)
    (fun j t =>
      t.x = x ∧ t.fi = off x.cols i + 1 + (j - i) ∧
      t.res.rows = s.res.rows ∧ t.res.cols = s.res.cols ∧
      t.res.order = s.res.order ∧ t.res.wf ∧
      ∀ k' c', k' < s.res.rows → c' < s.res.cols →
        t.res.entry k' c' =
          if off x.cols i + 1 ≤ c' ∧ c' < off x.cols i + 1 + (j - i) ∧ k' < x.rows
          then x.entry k' i * x.entry k' (i + (c' - (off x.cols i + 1)))
          else s.res.entry k' c')
    (x.cols - i) i s
    (by
      intro j t hij hjn hP
      obtain ⟨htx, htfi, hrr', hcc', hoo', hwf', hent⟩ := hP
      have hj : j < x.cols := by omega
      have hc0 : off x.cols i + 1 + (j - i) < t.res.cols := by omega
      obtain ⟨t₁, hrun₁, ht₁x, ht₁fi, ht₁r, ht₁c, ht₁o, ht₁wf, ht₁ent⟩ :=
        prodLoop_ok x i j (off x.cols i + 1 + (j - i)) hi hj t htx htfi
          hwf' (by omega) hc0
      refine ⟨{ t₁ with fi := t₁.fi + 1 }, ?_, ?_⟩
      · unfold jBody
        rw [hrun₁, ok_bind]
      · refine ⟨ht₁x, by simp only []; omega, by rw [ht₁r, hrr'],
          by rw [ht₁c, hcc'], by rw [ht₁o, hoo'], ht₁wf, ?_⟩
        intro k' c' hk' hc'
        have hk'' : k' < t.res.rows := by omega
        have hc'' : c' < t.res.cols := by omega
        rw [ht₁ent k' c' hk'' hc'']
        by_cases h1 : c' = off x.cols i + 1 + (j - i) ∧ k' < x.rows
        · rw [if_pos h1, if_pos ⟨by omega, by omega, h1.2⟩]
          have he : i + (c' - (off x.cols i + 1)) = j := by omega
          rw [he]
        · rw [if_neg h1, hent k' c' hk' hc']
          by_cases h2 : off x.cols i + 1 ≤ c' ∧ c' < off x.cols i + 1 + (j - i) ∧
              k' < x.rows
          · rw [if_pos h2, if_pos ⟨h2.1, by omega, h2.2.2⟩]
          · rw [if_neg h2, if_neg (by
              intro hcontra
              obtain ⟨ha, hb, hc⟩ := hcontra
              rcases Nat.lt_or_ge c' (off x.cols i + 1 + (j - i)) with hlt | hge
              · exact h2 ⟨ha, hlt, hc⟩
              · exact h1 ⟨by omega, hc⟩)])
    (by
      refine ⟨hsx, by omega, rfl, rfl, rfl, hwf, ?_⟩
      intro k' c' _ _
      rw [if_neg (by intro h; omega)])
  obtain ⟨hfx, hffi, hfr, hfc, hfo, hfwf, hfent⟩ := hfin
  refine ⟨s', hrun, hfx, by omega, hfr, hfc, hfo, hfwf, ?_⟩
  intro k' c' hk' hc'
  have := hfent k' c' hk' hc'
  rw [this]
  by_cases h : off x.cols i + 1 ≤ c' ∧ c' < off x.cols i + 1 + (x.cols - i) ∧
      k' < x.rows
  · rw [if_pos h, if_pos ⟨h.1, by omega, h.2.2⟩]
  · rw [if_neg h, if_neg (by intro hc; exact h ⟨hc.1, by omega, hc.2.2⟩)]

/-! ### What one output column holds -/

theorem outVal_copy (x : Mat) (i k : Nat) (hi : i < x.cols) :
    outVal x (off x.cols i) k = x.entry k i := by
  unfold outVal
  rw [List.getD_eq_getElem?_getD, descs_getElem_copy x.cols i hi]
  rfl

theorem outVal_prod (x : Mat) (i j k : Nat) (hij : i ≤ j) (hj : j < x.cols) :
    outVal x (off x.cols i + (1 + (j - i))) k = x.entry k i * x.entry k j := by
  unfold outVal
  rw [List.getD_eq_getElem?_getD, descs_getElem_prod x.cols i j hij hj]
  rfl

/-! ### The kernel characterization -/

theorem vec_poly_ok (x res : Mat) (hr : res.wf)
    (hrows : x.rows ≤ res.rows) (hcols : nFeat x.cols ≤ res.cols) :
    ∃ st, vec_poly x res = .ok st ∧ st.x = x ∧
      st.res.rows = res.rows ∧ st.res.cols = res.cols ∧
      st.res.order = res.order ∧ st.res.wf ∧ st.fi = nFeat x.cols ∧
      ∀ k c, k < res.rows → c < res.cols →
        st.res.entry k c =
          if c < nFeat x.cols ∧ k < x.rows then outVal x c k
          else res.entry k c := by
  have hnf : off x.cols x.cols = nFeat x.cols := off_n_eq_nFeat _
  obtain ⟨st, hrun, hfin⟩ := @forUp_inv St (iBody x.rows x.cols)
    (fun i t =>
      t.x = x ∧ t.fi = off x.cols i ∧
      t.res.rows = res.rows ∧ t.res.cols = res.cols ∧ t.res.order = res.order ∧
      t.res.wf ∧
      ∀ k' c', k' < res.rows → c' < res.cols →
        t.res.entry k' c' =
          if c' < off x.cols i ∧ k' < x.rows then outVal x c' k'
          else res.entry k' c')
    x.cols 0 ⟨x, res, 0⟩
    (by
      intro i t _ hin hP
      obtain ⟨htx, htfi, hrr', hcc', hoo', hwf', hent⟩ := hP
      have hi : i < x.cols := by omega
      have hmono : off x.cols (i + 1) ≤ off x.cols x.cols := off_mono _ (by omega)
      have hsucc := off_succ x.cols i
      have hc0 : off x.cols i < t.res.cols := by omega
      obtain ⟨t₁, hrun₁, ht₁x, ht₁fi, ht₁r, ht₁c, ht₁o, ht₁wf, ht₁ent⟩ :=
        copyLoop_ok x i (off x.cols i) hi t htx htfi hwf' (by omega) hc0
      obtain ⟨t₃, hrun₃, ht₃x, ht₃fi, ht₃r, ht₃c, ht₃o, ht₃wf, ht₃ent⟩ :=
        jLoop_ok x i hi { t₁ with fi := t₁.fi + 1 } ht₁x (by
          show t₁.fi + 1 = off x.cols i + 1
          omega) (by
          show t₁.res.wf
          exact ht₁wf) (by
          show x.rows ≤ t₁.res.rows
          omega) (by
          show nFeat x.cols ≤ t₁.res.cols
          omega)
      rw [show ({ t₁ with fi := t₁.fi + 1 } : St).res = t₁.res from rfl]
        at ht₃r ht₃c ht₃o ht₃ent
      refine ⟨t₃, ?_, ?_⟩
      · unfold iBody
        rw [hrun₁, ok_bind]
        exact hrun₃
      · refine ⟨ht₃x, by omega, by omega, by omega,
          by rw [ht₃o, ht₁o, hoo'], ht₃wf, ?_⟩
        intro k' c' hk' hc'
        rw [ht₃ent k' c' (by omega) (by omega)]
        by_cases h1 : off x.cols i + 1 ≤ c' ∧ c' < off x.cols i + 1 + (x.cols - i) ∧
            k' < x.rows
        · rw [if_pos h1, if_pos ⟨by omega, h1.2.2⟩]
          obtain ⟨j, hij, hj, rfl⟩ :
              ∃ j, i ≤ j ∧ j < x.cols ∧ c' = off x.cols i + (1 + (j - i)) :=
            ⟨i + (c' - (off x.cols i + 1)), by omega, by omega, by omega⟩
          have harg : i + (off x.cols i + (1 + (j - i)) - (off x.cols i + 1)) = j := by
            omega
          rw [harg, outVal_prod x i j k' hij hj]
        · rw [if_neg h1, ht₁ent k' c' (by omega) (by omega)]
          by_cases h2 : c' = off x.cols i ∧ k' < x.rows
          · rw [if_pos h2, if_pos ⟨by omega, h2.2⟩, h2.1, outVal_copy x i k' hi]
          · rw [if_neg h2, hent k' c' hk' hc']
            by_cases h3 : c' < off x.cols i ∧ k' < x.rows
            · rw [if_pos h3, if_pos ⟨by omega, h3.2⟩]
            · rw [if_neg h3, if_neg (by
                intro hcontra
                obtain ⟨ha, hb⟩ := hcontra
                rcases Nat.lt_trichotomy c' (off x.cols i) with hlt | heq | hgt
                · exact h3 ⟨hlt, hb⟩
                · exact h2 ⟨heq, hb⟩
                · exact h1 ⟨by omega, by omega, hb⟩)])
    (by
      refine ⟨rfl, rfl, rfl, rfl, rfl, hr, ?_⟩
      intro k' c' _ _
      rw [if_neg (by intro h; simp [off] at h)])
  simp only [Nat.zero_add] at hfin
  obtain ⟨hfx, hffi, hfr, hfc, hfo, hfwf, hfent⟩ := hfin
  refine ⟨st, ?_, hfx, hfr, hfc, hfo, hfwf, by omega, ?_⟩
  · show forUp (iBody x.rows x.cols) 0 x.cols ⟨x, res, 0⟩ = .ok st
    exact hrun
  · intro k c hk hc
    rw [hfent k c hk hc]
    by_cases h : c < nFeat x.cols ∧ k < x.rows
    · rw [if_pos ⟨by omega, h.2⟩, if_pos h]
    · rw [if_neg (by intro hcontra; exact h ⟨by omega, hcontra.2⟩), if_neg h]

/-! ### The kernel only writes `res`: `x` is framed -/

theorem copyBody_x (i k : Nat) (t t' : St) (h : copyBody i k t = .ok t') :
    t'.x = t.x := by
  unfold copyBody at h
  cases hg : getE t.x k i with
  | ok v =>
    rw [hg, ok_bind] at h
    cases hs : setE t.res k t.fi v with
    | ok r =>
      rw [hs, ok_bind] at h
      cases h
      rfl
    | error e =>
      rw [hs, error_bind] at h
      cases h
  | error e =>
    rw [hg, error_bind] at h
    cases h

theorem prodBody_x (i j k : Nat) (t t' : St) (h : prodBody i j k t = .ok t') :
    t'.x = t.x := by
  unfold prodBody at h
  cases hg : getE t.x k i with
  | ok a =>
    rw [hg, ok_bind] at h
    cases hg' : getE t.x k j with
    | ok b =>
      rw [hg', ok_bind] at h
      cases hs : setE t.res k t.fi (a * b) with
      | ok r =>
        rw [hs, ok_bind] at h
        cases h
        rfl
      | error e =>
        rw [hs, error_bind] at h
        cases h
    | error e =>
      rw [hg', error_bind] at h
      cases h
  | error e =>
    rw [hg, error_bind] at h
    cases h

theorem jBody_x (m i j : Nat) (t t' : St) (h : jBody m i j t = .ok t') :
    t'.x = t.x := by
  unfold jBody at h
  cases hg : forUp (prodBody i j) 0 m t with
  | ok u =>
    rw [hg, ok_bind] at h
    cases h
    exact @forUp_pres St (prodBody i j) (fun s s' => s'.x = s.x) (fun _ => rfl)
      (fun _ _ _ h1 h2 => h2.trans h1) (prodBody_x i j) m 0 t u hg
  | error e =>
    rw [hg, error_bind] at h
    cases h

theorem iBody_x (m n i : Nat) (t t' : St) (h : iBody m n i t = .ok t') :
    t'.x = t.x := by
  unfold iBody at h
  cases hg : forUp (copyBody i) 0 m t with
  | ok u =>
    rw [hg, ok_bind] at h
    have h1 : u.x = t.x :=
      @forUp_pres St (copyBody i) (fun s s' => s'.x = s.x) (fun _ => rfl)
        (fun _ _ _ ha hb => hb.trans ha) (copyBody_x i) m 0 t u hg
    have h2 : t'.x = ({ u with fi := u.fi + 1 } : St).x :=
      @forUp_pres St (jBody m i) (fun s s' => s'.x = s.x) (fun _ => rfl)
        (fun _ _ _ ha hb => hb.trans ha) (jBody_x m i) (n - i) i
        { u with fi := u.fi + 1 } t' h
    rw [h2]
    exact h1
  | error e =>
    rw [hg, error_bind] at h
    cases h

theorem vec_poly_x_frame (x res : Mat) (st : St) (h : vec_poly x res = .ok st) :
    st.x = x :=
  @forUp_pres St (iBody x.rows x.cols) (fun s s' => s'.x = s.x) (fun _ => rfl)
    (fun _ _ _ ha hb => hb.trans ha) (iBody_x x.rows x.cols) x.cols 0
    ⟨x, res, 0⟩ st h

/-! ### Degenerate inputs: the loops run zero write iterations -/

theorem jBody_empty (i j : Nat) (t : St) :
    jBody 0 i j t = .ok { t with fi := t.fi + 1 } := rfl

theorem jLoop_empty (i : Nat) :
    ∀ (cnt a : Nat) (u : St),
      forUp (jBody 0 i) a cnt u = .ok { u with fi := u.fi + cnt } := by
  intro cnt
  induction cnt with
  | zero =>
    intro a u
    show Except.ok u = Except.ok { u with fi := u.fi + 0 }
    exact congrArg Except.ok (stEq rfl rfl rfl)
  | succ cnt ih =>
    intro a u
    show jBody 0 i a u >>= forUp (jBody 0 i) (a + 1) cnt = _
    rw [jBody_empty, ok_bind, ih (a + 1) { u with fi := u.fi + 1 }]
    refine congrArg Except.ok (stEq rfl rfl ?_)
    show u.fi + 1 + cnt = u.fi + (cnt + 1)
    omega

theorem iBody_empty (n i : Nat) (t : St) :
    iBody 0 n i t = .ok { t with fi := t.fi + (1 + (n - i)) } := by
  unfold iBody
  show forUp (jBody 0 i) i (n - i) { t with fi := t.fi + 1 } = _
  rw [jLoop_empty]
  refine congrArg Except.ok (stEq rfl rfl ?_)
  show t.fi + 1 + (n - i) = t.fi + (1 + (n - i))
  omega

theorem vec_poly_empty (x res : Mat) (h : x.rows = 0 ∨ x.cols = 0) :
    vec_poly x res = .ok ⟨x, res, nFeat x.cols⟩ := by
  rcases h with hm | hn
  · show forUp (iBody x.rows x.cols) 0 x.cols ⟨x, res, 0⟩ = _
    rw [hm]
    obtain ⟨st, hrun, hfin⟩ := @forUp_inv St (iBody 0 x.cols)
      (fun i t => t.x = x ∧ t.res = res ∧ t.fi = off x.cols i)
      x.cols 0 ⟨x, res, 0⟩
      (by
        intro i t _ hin hP
        obtain ⟨h1, h2, h3⟩ := hP
        refine ⟨{ t with fi := t.fi + (1 + (x.cols - i)) }, iBody_empty x.cols i t,
          h1, h2, ?_⟩
        show t.fi + (1 + (x.cols - i)) = off x.cols (i + 1)
        rw [off_succ]
        omega)
      ⟨rfl, rfl, rfl⟩
    rw [hrun]
    obtain ⟨h1, h2, h3⟩ := hfin
    simp only [Nat.zero_add] at h3
    refine congrArg Except.ok (stEq h1 h2 ?_)
    show st.fi = nFeat x.cols
    rw [h3, off_n_eq_nFeat]
  · show forUp (iBody x.rows x.cols) 0 x.cols ⟨x, res, 0⟩ = _
    rw [hn]
    rfl

/-! ### The output is a function of the input values only -/

theorem outVal_congr (x₁ x₂ : Mat) (_hrows : x₁.rows = x₂.rows)
    (hcols : x₁.cols = x₂.cols)
    (hval : ∀ k c, k < x₁.rows → c < x₁.cols → x₁.entry k c = x₂.entry k c)
    (c k : Nat) (hc : c < nFeat x₁.cols) (hk : k < x₁.rows) :
    outVal x₁ c k = outVal x₂ c k := by
  unfold outVal
  rw [← hcols]
  have hlen : (descsFrom x₁.cols 0).length = nFeat x₁.cols := by
    have := descsFrom_length x₁.cols 0 (by omega)
    have h0 : off x₁.cols 0 = 0 := rfl
    rw [h0, off_n_eq_nFeat] at this
    omega
  have hcl : c < (descsFrom x₁.cols 0).length := by omega
  have hget : (descsFrom x₁.cols 0)[c]? = some ((descsFrom x₁.cols 0).get ⟨c, hcl⟩) := by
    rw [List.getElem?_eq_getElem hcl]
    rfl
  have hmem : (descsFrom x₁.cols 0).get ⟨c, hcl⟩ ∈ descsFrom x₁.cols 0 :=
    List.get_mem _ _ hcl
  have hrange := descsFrom_inRange x₁.cols 0 _ hmem
  rw [List.getD_eq_getElem?_getD, hget]
  cases hd : (descsFrom x₁.cols 0).get ⟨c, hcl⟩ with
  | copy a =>
    rw [hd] at hrange
    have ha : a < x₁.cols := hrange
    simp only [Option.getD_some]
    show x₁.entry k a = x₂.entry k a
    exact hval k a hk ha
  | prod a b =>
    rw [hd] at hrange
    have hab : a ≤ b ∧ b < x₁.cols := hrange
    simp only [Option.getD_some]
    show x₁.entry k a * x₁.entry k b = x₂.entry k a * x₂.entry k b
    rw [hval k a hk (by omega), hval k b hk (by omega)]

/-! ### Position bounds for the two kinds of output columns -/

theorem off_copy_lt (n i : Nat) (hi : i < n) : off n i < nFeat n := by
  have h1 := off_succ n i
  have h2 : off n (i + 1) ≤ off n n := off_mono n (by omega)
  have h3 := off_n_eq_nFeat n
  omega

theorem off_prod_lt (n i j : Nat) (hij : i ≤ j) (hj : j < n) :
    off n i + (1 + (j - i)) < nFeat n := by
  have h1 := off_succ n i
  have h2 : off n (i + 1) ≤ off n n := off_mono n (by omega)
  have h3 := off_n_eq_nFeat n
  omega

/-! ### Concrete fixtures: the spec scenario and degenerate shapes -/

/-- The spec scenario input `x = [[1,2],[3,4]]`, `m = n = 2`, row-major. -/
def xEx : Mat := ⟨2, 2, false, [1, 2, 3, 4]⟩

/-- A zero destination of the exact shape `(2, nFeat 2) = (2, 5)`. -/
def resEx : Mat := ⟨2, 5, false, List.replicate 10 0⟩

/-- The same values as `xEx` stored column-major (`np.asfortranarray`). -/
def xExF : Mat := ⟨2, 2, true, [1, 3, 2, 4]⟩

/-- A zero destination of shape `(2, 5)` stored column-major (`order='F'`). -/
def resExF : Mat := ⟨2, 5, true, List.replicate 10 0⟩

/-- A `1 × 2` input `[[1, 2]]`, row-major. -/
def xWide : Mat := ⟨1, 2, false, [1, 2]⟩

/-- An oversized destination of shape `(1, 6)`, one column more than
`nFeat 2 = 5`: its dimensions do not match the contract. -/
def resOver : Mat := ⟨1, 6, false, [0, 0, 0, 0, 0, 0]⟩

/-! ## The claims -/

/-- Claim C1: for every input matrix with `m ≥ 1` rows and `n ≥ 1` columns
and an exact-shape destination, the kernel succeeds and emits output
columns in exactly the source's ordering: for `i` from `0` to `n-1`, the
column at position `off n i` equals input column `i`, and for each `j`
from `i` to `n-1` the column at position `off n i + (1 + (j - i))` equals
the elementwise product of input columns `i` and `j`.  The positions
`off n i` depend only on the shape `n`, so the ordering is the same for
every valid input of that shape. -/
theorem C1_column_ordering (x res : Mat) (hr : res.wf)
    (_hm : 1 ≤ x.rows) (_hn : 1 ≤ x.cols)
    (hrr : res.rows = x.rows) (hrc : res.cols = nFeat x.cols) :
    ∃ st, vec_poly x res = .ok st ∧
      (∀ i, i < x.cols → ∀ k, k < x.rows →
        st.res.entry k (off x.cols i) = x.entry k i) ∧
      (∀ i j, i ≤ j → j < x.cols → ∀ k, k < x.rows →
        st.res.entry k (off x.cols i + (1 + (j - i))) =
          x.entry k i * x.entry k j) := by
  obtain ⟨st, hrun, hsx, hrows, hcols, horder, hwf, hfi, hent⟩ :=
    vec_poly_ok x res hr (by omega) (by omega)
  refine ⟨st, hrun, ?_, ?_⟩
  · intro i hi k hk
    have hoff := off_copy_lt x.cols i hi
    rw [hent k (off x.cols i) (by omega) (by omega), if_pos ⟨hoff, hk⟩,
      outVal_copy x i k hi]
  · intro i j hij hj k hk
    have hoff := off_prod_lt x.cols i j hij hj
    rw [hent k (off x.cols i + (1 + (j - i))) (by omega) (by omega),
      if_pos ⟨hoff, hk⟩, outVal_prod x i j k hij hj]

/-- Witness for C1 at the concrete scenario `x = [[1,2],[3,4]]` with a
zero-initialised exact-shape destination. -/
theorem C1_column_ordering_witness :
    ∃ st, vec_poly xEx resEx = .ok st ∧
      (∀ i, i < xEx.cols → ∀ k, k < xEx.rows →
        st.res.entry k (off xEx.cols i) = xEx.entry k i) ∧
      (∀ i j, i ≤ j → j < xEx.cols → ∀ k, k < xEx.rows →
        st.res.entry k (off xEx.cols i + (1 + (j - i))) =
          xEx.entry k i * xEx.entry k j) :=
  C1_column_ordering xEx resEx (by decide) (by decide) (by decide) (by decide)
    (by decide)

/-- Claim C2 counterexample: on `x = [[1,2],[3,4]]` the output column `1`
is `x0*x0 = [1,9]`, not a verbatim copy of input column `1 = [2,4]`: the
first `n` output columns are not the input columns. -/
theorem C2_counterexample :
    entryOf (vec_poly xEx resEx) 0 1 ≠ some (xEx.entry 0 1) := by decide

/-- Claim C2 as amended: the verbatim copy of input column `i` appears at
output position `off n i` (interleaved with the product columns), not at
position `i`. -/
theorem C2_copies_at_off (x res : Mat) (hr : res.wf)
    (_hm : 1 ≤ x.rows) (_hn : 1 ≤ x.cols)
    (hrr : res.rows = x.rows) (hrc : res.cols = nFeat x.cols) :
    ∃ st, vec_poly x res = .ok st ∧
      ∀ i, i < x.cols → ∀ k, k < x.rows →
        st.res.entry k (off x.cols i) = x.entry k i := by
  obtain ⟨st, hrun, hsx, hrows, hcols, horder, hwf, hfi, hent⟩ :=
    vec_poly_ok x res hr (by omega) (by omega)
  refine ⟨st, hrun, ?_⟩
  intro i hi k hk
  have hoff := off_copy_lt x.cols i hi
  rw [hent k (off x.cols i) (by omega) (by omega), if_pos ⟨hoff, hk⟩,
    outVal_copy x i k hi]

/-- Witness for the amended C2 at the concrete scenario. -/
theorem C2_copies_at_off_witness :
    ∃ st, vec_poly xEx resEx = .ok st ∧
      ∀ i, i < xEx.cols → ∀ k, k < xEx.rows →
        st.res.entry k (off xEx.cols i) = xEx.entry k i :=
  C2_copies_at_off xEx resEx (by decide) (by decide) (by decide) (by decide)
    (by decide)

/-- Claim C3 counterexample: the claimed output has entry `(0,1) = 2`
(column order `[x0, x1, x0*x0, x0*x1, x1*x1]`), but the kernel produces
entry `(0,1) = 1` (column order `[x0, x0*x0, x0*x1, x1, x1*x1]`). -/
theorem C3_counterexample :
    entryOf (vec_poly xEx resEx) 0 1 ≠ some 2 := by decide

/-- Claim C3 as amended: on `x = [[1,2],[3,4]]` the kernel produces the
output matrix `[[1,1,2,2,4],[3,9,12,4,16]]`, i.e. columns in the order
`[x0, x0*x0, x0*x1, x1, x1*x1]`. -/
theorem C3_concrete_output :
    vec_poly xEx resEx =
      .ok ⟨xEx, ⟨2, 5, false, [1, 1, 2, 2, 4, 3, 9, 12, 4, 16]⟩, 5⟩ := rfl

/-- Claim C4: for every valid input, every exact-shape destination, and
every pair `i ≤ j < n`, the output column the ordering designates for the
pair `(i, j)` — position `off n i + (1 + (j - i))` — equals the
elementwise product of input columns `i` and `j`: each entry is the plain
product of the two corresponding input entries (a single multiplication,
no accumulation). -/
theorem C4_product_columns (x res : Mat) (hr : res.wf)
    (_hm : 1 ≤ x.rows) (_hn : 1 ≤ x.cols)
    (hrr : res.rows = x.rows) (hrc : res.cols = nFeat x.cols) :
    ∃ st, vec_poly x res = .ok st ∧
      ∀ i j, i ≤ j → j < x.cols → ∀ k, k < x.rows →
        st.res.entry k (off x.cols i + (1 + (j - i))) =
          x.entry k i * x.entry k j := by
  obtain ⟨st, hrun, hsx, hrows, hcols, horder, hwf, hfi, hent⟩ :=
    vec_poly_ok x res hr (by omega) (by omega)
  refine ⟨st, hrun, ?_⟩
  intro i j hij hj k hk
  have hoff := off_prod_lt x.cols i j hij hj
  rw [hent k (off x.cols i + (1 + (j - i))) (by omega) (by omega),
    if_pos ⟨hoff, hk⟩, outVal_prod x i j k hij hj]

/-- Witness for C4 at the concrete scenario. -/
theorem C4_product_columns_witness :
    ∃ st, vec_poly xEx resEx = .ok st ∧
      ∀ i j, i ≤ j → j < xEx.cols → ∀ k, k < xEx.rows →
        st.res.entry k (off xEx.cols i + (1 + (j - i))) =
          xEx.entry k i * xEx.entry k j :=
  C4_product_columns xEx resEx (by decide) (by decide) (by decide) (by decide)
    (by decide)

/-- Claim C5: for every input with `m ≥ 1`, `n ≥ 1` and an exact-shape
destination, the kernel succeeds, the output has shape
`(m, n + n*(n+1)/2)` (`nFeat n`, as the caller computes it), and every
one of its `m * nFeat n` entries equals `outVal x`, a function of the
input alone — no entry keeps the destination's prior value. -/
theorem C5_shape_and_full_overwrite (x res : Mat) (hr : res.wf)
    (_hm : 1 ≤ x.rows) (_hn : 1 ≤ x.cols)
    (hrr : res.rows = x.rows) (hrc : res.cols = nFeat x.cols) :
    ∃ st, vec_poly x res = .ok st ∧
      st.res.rows = x.rows ∧ st.res.cols = nFeat x.cols ∧
      ∀ k c, k < x.rows → c < nFeat x.cols →
        st.res.entry k c = outVal x c k := by
  obtain ⟨st, hrun, hsx, hrows, hcols, horder, hwf, hfi, hent⟩ :=
    vec_poly_ok x res hr (by omega) (by omega)
  refine ⟨st, hrun, by omega, by omega, ?_⟩
  intro k c hk hc
  rw [hent k c (by omega) (by omega), if_pos ⟨hc, hk⟩]

/-- Witness for C5 at the concrete scenario. -/
theorem C5_shape_and_full_overwrite_witness :
    ∃ st, vec_poly xEx resEx = .ok st ∧
      st.res.rows = xEx.rows ∧ st.res.cols = nFeat xEx.cols ∧
      ∀ k c, k < xEx.rows → c < nFeat xEx.cols →
        st.res.entry k c = outVal xEx c k :=
  C5_shape_and_full_overwrite xEx resEx (by decide) (by decide) (by decide)
    (by decide) (by decide)

/-- Claim C6 counterexample: on an input with `m = 0` rows (shape
`(0, 3)`) and a destination of shape `(0, 9)`, the kernel does not fail:
it completes successfully, leaves the destination exactly as it was, and
only advances the column counter to `nFeat 3 = 9` — there is no
`InvalidShape` check anywhere in the kernel. -/
theorem C6_counterexample :
    vec_poly ⟨0, 3, false, []⟩ ⟨0, 9, false, []⟩ =
      .ok ⟨⟨0, 3, false, []⟩, ⟨0, 9, false, []⟩, 9⟩ := rfl

/-- Claim C6 as amended: on every input with `m = 0` or `n = 0` the
kernel validates nothing and raises nothing: every loop body runs zero
write iterations, the destination is returned unchanged, and the run
ends in success with the counter at `nFeat n`. -/
theorem C6_degenerate_no_error (x res : Mat) (h : x.rows = 0 ∨ x.cols = 0) :
    vec_poly x res = .ok ⟨x, res, nFeat x.cols⟩ :=
  vec_poly_empty x res h

/-- Witness for the amended C6: a `5 × 0` input with a nonempty `(5, 7)`
destination, returned untouched. -/
theorem C6_degenerate_no_error_witness :
    vec_poly ⟨5, 0, false, []⟩ ⟨5, 7, false, List.replicate 35 0⟩ =
      .ok ⟨⟨5, 0, false, []⟩, ⟨5, 7, false, List.replicate 35 0⟩, nFeat 0⟩ :=
  C6_degenerate_no_error ⟨5, 0, false, []⟩ ⟨5, 7, false, List.replicate 35 0⟩
    (Or.inr rfl)

/-- Claim C7 counterexample: for the input `[[1, 2]]` and a destination
of shape `(1, 6)` — not the contractual `(1, nFeat 2) = (1, 5)` — the
kernel raises no `ShapeMismatch` and does not leave the buffer unchanged:
it completes successfully, having written the first five entries. -/
theorem C7_counterexample :
    vec_poly xWide resOver =
      .ok ⟨xWide, ⟨1, 6, false, [1, 1, 2, 2, 4, 0]⟩, 5⟩ := rfl

/-- Claim C7 as amended: the kernel performs no shape validation on the
destination.  Any destination with at least `m` rows and at least
`nFeat n` columns — matching the contract or not — is accepted and
written; the kernel never fails with a shape error before writing.  (An
undersized destination fails only at the first out-of-bounds write,
after the preceding in-range writes.) -/
theorem C7_no_shape_check (x res : Mat) (hr : res.wf)
    (hrows : x.rows ≤ res.rows) (hcols : nFeat x.cols ≤ res.cols) :
    ∃ st, vec_poly x res = .ok st := by
  obtain ⟨st, hrun, _⟩ := vec_poly_ok x res hr hrows hcols
  exact ⟨st, hrun⟩

/-- Witness for the amended C7 at the oversized destination. -/
theorem C7_no_shape_check_witness :
    ∃ st, vec_poly xWide resOver = .ok st :=
  C7_no_shape_check xWide resOver (by decide) (by decide) (by decide)

/-- Claim C8: two input matrices holding identical values but stored in
different memory layouts (row-major versus column-major) produce
identical output matrices — same dimensions, same values, same column
order.  The destinations' layouts may also differ. -/
theorem C8_layout_independence (x₁ x₂ res₁ res₂ : Mat)
    (hr₁ : res₁.wf) (hr₂ : res₂.wf)
    (_hm : 1 ≤ x₁.rows) (_hn : 1 ≤ x₁.cols)
    (hxr : x₁.rows = x₂.rows) (hxc : x₁.cols = x₂.cols)
    (hxv : ∀ k c, k < x₁.rows → c < x₁.cols → x₁.entry k c = x₂.entry k c)
    (hrr₁ : res₁.rows = x₁.rows) (hrc₁ : res₁.cols = nFeat x₁.cols)
    (hrr₂ : res₂.rows = x₂.rows) (hrc₂ : res₂.cols = nFeat x₂.cols) :
    ∃ st₁ st₂, vec_poly x₁ res₁ = .ok st₁ ∧ vec_poly x₂ res₂ = .ok st₂ ∧
      st₁.res.rows = st₂.res.rows ∧ st₁.res.cols = st₂.res.cols ∧
      ∀ k c, k < x₁.rows → c < nFeat x₁.cols →
        st₁.res.entry k c = st₂.res.entry k c := by
  have hnf : nFeat x₁.cols = nFeat x₂.cols := by rw [hxc]
  obtain ⟨st₁, hrun₁, _, hrows₁, hcols₁, _, _, _, hent₁⟩ :=
    vec_poly_ok x₁ res₁ hr₁ (by omega) (by omega)
  obtain ⟨st₂, hrun₂, _, hrows₂, hcols₂, _, _, _, hent₂⟩ :=
    vec_poly_ok x₂ res₂ hr₂ (by omega) (by omega)
  refine ⟨st₁, st₂, hrun₁, hrun₂, by omega, by omega, ?_⟩
  intro k c hk hc
  rw [hent₁ k c (by omega) (by omega), hent₂ k c (by omega) (by omega),
    if_pos ⟨by omega, by omega⟩, if_pos ⟨by omega, by omega⟩]
  exact outVal_congr x₁ x₂ hxr hxc hxv c k (by omega) (by omega)

/-- Witness for C8: `[[1,2],[3,4]]` stored row-major versus the same
values stored column-major, with matching-layout zero destinations. -/
theorem C8_layout_independence_witness :
    ∃ st₁ st₂, vec_poly xEx resEx = .ok st₁ ∧ vec_poly xExF resExF = .ok st₂ ∧
      st₁.res.rows = st₂.res.rows ∧ st₁.res.cols = st₂.res.cols ∧
      ∀ k c, k < xEx.rows → c < nFeat xEx.cols →
        st₁.res.entry k c = st₂.res.entry k c :=
  C8_layout_independence xEx xExF resEx resExF (by decide) (by decide)
    (by decide) (by decide) (by decide) (by decide)
    (by
      intro k c hk hc
      have hk2 : k < 2 := hk
      have hc2 : c < 2 := hc
      interval_cases k <;> interval_cases c <;> decide)
    (by decide) (by decide) (by decide) (by decide)

/-- Claim C9: the kernel never modifies its input matrix `x`.  In the
explicit-state model every successful run carries `x` through unchanged:
only the `res` component of the call state is ever written. -/
theorem C9_input_frame (x res : Mat) (st : St) (h : vec_poly x res = .ok st) :
    st.x = x :=
  vec_poly_x_frame x res st h

/-- Witness for C9 at the concrete scenario run. -/
theorem C9_input_frame_witness :
    (⟨xEx, ⟨2, 5, false, [1, 1, 2, 2, 4, 3, 9, 12, 4, 16]⟩, 5⟩ : St).x = xEx :=
  C9_input_frame xEx resEx
    ⟨xEx, ⟨2, 5, false, [1, 1, 2, 2, 4, 3, 9, 12, 4, 16]⟩, 5⟩ rfl

/-- Claim C10: with a destination of the contractual shape
`(m, nFeat n)`, every element access the kernel performs is in bounds —
every access in the model is bounds-checked and any violation aborts the
run with an `indexError`, so success of the run is exactly in-bounds-ness
of all the unchecked numba accesses.  The final counter value `nFeat n`
confirms the writes stayed below `n + n*(n+1)/2`. -/
theorem C10_memory_safety (x res : Mat) (hr : res.wf)
    (hrr : res.rows = x.rows) (hrc : res.cols = nFeat x.cols) :
    ∃ st, vec_poly x res = .ok st ∧ st.fi = nFeat x.cols := by
  obtain ⟨st, hrun, _, _, _, _, _, hfi, _⟩ :=
    vec_poly_ok x res hr (by omega) (by omega)
  exact ⟨st, hrun, hfi⟩

/-- Witness for C10 at the concrete scenario. -/
theorem C10_memory_safety_witness :
    ∃ st, vec_poly xEx resEx = .ok st ∧ st.fi = nFeat xEx.cols :=
  C10_memory_safety xEx resEx (by decide) (by decide) (by decide)

end VecPoly
